import Mathlib

/-!
Verification of the `observatory.state_graph` incremental-computation core.

The Python module is shallowly embedded as follows:

* A graph is a list of nodes; node identities (Python object references)
  become list indices (`Nat`).
* Node values of type `T` become an `Option V` field, with `none` playing the
  role of the `ValueStatus.NOT_SET` sentinel (Python's `NOT_SET == x` is
  `False` for every ordinary `x`, matching `none` being distinct from every
  `some v`).
* The user-supplied compute callable may raise, so it is embedded as
  `List V → Except E V` where `E` is the type of user exceptions.
* The `updated` event hook is a per-instance bound hook (`EventHook.__get__`
  caches a bound copy per node), so emissions are recorded in an event log
  tagged with the emitting node's index.  Invocations of the user compute
  function are also logged, so that "the compute function was never invoked"
  is expressible.
* Exceptions (`ValueError` for an unset value, `ValueError` for a read-only
  `Derived.set`, missing compute function, and uncaught user exceptions from
  compute) become an `Err` sum.  Python exceptions do not roll back state, so
  every operation returns its (possibly partial) state changes together with
  the `Except` outcome.
* `Value.set`'s unconditional recursive dirty propagation and the recursive
  pull in `Derived.get` need not terminate on cyclic graphs, so both take a
  fuel parameter; a `none` result means fuel exhaustion (an artifact of the
  embedding, corresponding to unbounded recursion in Python).
-/

namespace Observatory

set_option linter.unusedSectionVars false

/-- The concrete node classes of `state_graph.py`: `Value`, `Observer`
(a `Value` fed from an event hook) and `Derived`. -/
inductive NodeKind : Type
  | value
  | observer
  | derived
deriving DecidableEq, Repr

/-- Observable occurrences during an operation: an emission on a node's
`updated` hook (with the old stored value, possibly the unset sentinel, and
the new value), and an invocation of a Derived node's user compute function
on a tuple of pulled input values. -/
inductive Event (V : Type) : Type
  | updated (node : Nat) (oldVal : Option V) (newVal : V)
  | computeCall (node : Nat) (args : List V)
deriving DecidableEq, Repr

/-- The error taxonomy of the module.  `unsetValue` is the `ValueError`
raised by `Value._ensure_value`, `readOnly` the `ValueError` raised by
`Derived.set`, `noComputeFn` the `ValueError` raised by `Derived.compute`
when no compute callable was supplied, and `userExc` an exception raised by
the user compute function, which the core neither catches nor wraps. -/
inductive Err (E : Type) : Type
  | unsetValue
  | readOnly
  | noComputeFn
  | userExc (e : E)
deriving DecidableEq, Repr

/-- A node of the state graph.  Mirrors the `__slots__` of `_Node`/`Value`/
`Derived`: `_value`, `_has_update`, `_needs_update`, `_outputs`, and for
Derived nodes `_inputs` and `_computer`.  For `Value`/`Observer` nodes the
`inputs` list is empty and `compute` is `none`. -/
structure Node (V E : Type) : Type where
  value : Option V
  hasUpdate : Bool
  needsUpdate : Bool
  outputs : List Nat
  inputs : List Nat
  kind : NodeKind
  compute : Option (List V → Except E V)

/-- A graph is the arena of all nodes; object references are indices. -/
abbrev Graph (V E : Type) : Type := List (Node V E)

variable {V E : Type} [DecidableEq V]

/-- `Value.__init__`: stores the given value (or the unset sentinel) and sets
`_has_update = True`; `_needs_update` starts `False` and `_outputs` empty. -/
def mkValue (v : Option V) : Node V E :=
  { value := v, hasUpdate := true, needsUpdate := false,
    outputs := [], inputs := [], kind := .value, compute := none }

/-- `Observer.__init__`: calls `Value.__init__` with no value (the unset
sentinel) and subscribes its own `set` to the external hook. -/
def mkObserver : Node V E :=
  { value := none, hasUpdate := true, needsUpdate := false,
    outputs := [], inputs := [], kind := .observer, compute := none }

/-- The node allocated by `Derived.__init__` before graph connections are
made: `Value.__init__` runs with the unset sentinel (so `_has_update` is
`True`), then `_needs_update` is set to `True`. -/
def mkDerivedNode (computeFn : Option (List V → Except E V)) (inputs : List Nat) :
    Node V E :=
  { value := none, hasUpdate := true, needsUpdate := true,
    outputs := [], inputs := inputs, kind := .derived, compute := computeFn }

/-- Replace the node at index `i` by `f` applied to it (mutation of one
Python object); indices without a node are left alone. -/
def modifyNode (g : Graph V E) (i : Nat) (f : Node V E → Node V E) : Graph V E :=
  match g[i]? with
  | some n => g.set i (f n)
  | none => g

/-- The `outputs`-list append in `Derived.__init__`:
`if self not in input._outputs: input._outputs.append(self)`. -/
def connectOutput (g : Graph V E) (k : Nat) (newId : Nat) : Graph V E :=
  modifyNode g k fun n =>
    if newId ∈ n.outputs then n else { n with outputs := n.outputs ++ [newId] }

/-- `Derived.__init__`: append the fresh node and register it in every
input's `_outputs` list. -/
def addDerived (g : Graph V E) (computeFn : Option (List V → Except E V))
    (inputs : List Nat) : Graph V E :=
  inputs.foldl (fun acc k => connectOutput acc k g.length)
    (g ++ [mkDerivedNode computeFn inputs])

/-- Append a fresh `Value` node holding `v`. -/
def addValue (g : Graph V E) (v : Option V) : Graph V E :=
  g ++ [mkValue v]

/-- `Value._ensure_value`: raises when the stored value is still the unset
sentinel, otherwise produces it. -/
def ensureValue (n : Node V E) : Except (Err E) V :=
  match n.value with
  | some v => .ok v
  | none => .error .unsetValue

/-- Set `_needs_update = True` on the node at index `o`. -/
def markNeedsUpdate (g : Graph V E) (o : Nat) : Graph V E :=
  modifyNode g o fun n => { n with needsUpdate := true }

/-- The `for output in self._outputs` loop of `_push_needs_update`: for each
output, set its `_needs_update` flag and recurse from it with `push1`. -/
def pushWith (push1 : Graph V E → Nat → Option (Graph V E)) :
    Graph V E → List Nat → Option (Graph V E)
  | g, [] => some g
  | g, o :: rest =>
    match push1 (markNeedsUpdate g o) o with
    | none => none
    | some g1 => pushWith push1 g1 rest

/-- `_Node._push_needs_update`: for every output, set its `_needs_update`
flag and recurse from it.  The recursion is unconditional, so it only
terminates on (finite) graphs without reachable cycles; `fuel` bounds the
recursion depth and `none` signals exhaustion. -/
def pushNeedsUpdate : Nat → Graph V E → Nat → Option (Graph V E)
  | 0, _, _ => none
  | f + 1, g, i =>
    match g[i]? with
    | none => some g
    | some n => pushWith (pushNeedsUpdate f) g n.outputs

/-- The tail of `Value.set` past the equality guard: store the new value,
emit `updated(old, new)`, set `_has_update = True`, and push
`_needs_update` into all descendants. -/
def setValueStore (fuel : Nat) (g : Graph V E) (i : Nat) (oldVal : Option V)
    (newValue : V) : Option (Except (Err E) Unit × Graph V E × List (Event V)) :=
  let g1 := modifyNode g i fun n => { n with value := some newValue, hasUpdate := true }
  match pushNeedsUpdate fuel g1 i with
  | none => none
  | some g2 => some (.ok (), g2, [Event.updated i oldVal newValue])

/-- `set` on the node at index `i`.  For a Derived node this is
`Derived.set`, which raises unconditionally; otherwise it is `Value.set`:
a no-op when the new value equals the stored one, else store/emit/flag/push.
Comparing the unset sentinel with a value is never equal. -/
def setValue (fuel : Nat) (g : Graph V E) (i : Nat) (newValue : V) :
    Option (Except (Err E) Unit × Graph V E × List (Event V)) :=
  match g[i]? with
  | none => none
  | some n =>
    if n.kind = .derived then
      some (.error .readOnly, g, [])
    else
      match n.value with
      | some oldV =>
        if oldV = newValue then some (.ok (), g, [])
        else setValueStore fuel g i (some oldV) newValue
      | none => setValueStore fuel g i none newValue

/-- `any(inp._has_update for inp in self._inputs)`. -/
def anyInputHasUpdate (g : Graph V E) (ks : List Nat) : Bool :=
  ks.any fun k => ((g[k]?).map Node.hasUpdate).getD false

/-- `self._needs_update = False; self._has_update = False` (the two
idempotence short-circuit branches of `Derived._compute`). -/
def clearFlags (g : Graph V E) (i : Nat) : Graph V E :=
  modifyNode g i fun n => { n with hasUpdate := false, needsUpdate := false }

/-- `tuple(inp.get() for inp in self._inputs)`: pull each input left to
right with `get1`; an exception aborts the tuple but keeps earlier state
changes and the events they emitted. -/
def pullWith (get1 : Graph V E → Nat → Option (Except (Err E) V × Graph V E × List (Event V))) :
    Graph V E → List Nat →
    Option (Except (Err E) (List V) × Graph V E × List (Event V))
  | g, [] => some (.ok [], g, [])
  | g, k :: rest =>
    match get1 g k with
    | none => none
    | some (.error e, g1, log1) => some (.error e, g1, log1)
    | some (.ok v, g1, log1) =>
      match pullWith get1 g1 rest with
      | none => none
      | some (.error e, g2, log2) => some (.error e, g2, log1 ++ log2)
      | some (.ok vs, g2, log2) => some (.ok (v :: vs), g2, log1 ++ log2)

/-- `get` on the node at index `i`.  For `Value`/`Observer` nodes this is
`Value.get` (`_ensure_value`).  For a Derived node it is `Derived.get`: the
cached value when `_needs_update` is false, otherwise `_compute` followed by
`_ensure_value`.  `_compute` pulls every input in declared order (recursively
running their own `get`), short-circuits with cleared flags when no direct
input reports `_has_update` or when the recomputed value equals the cached
one, and otherwise stores the new value, emits `updated`, sets `_has_update`
and clears `_needs_update`.  State changes made before an exception persist,
so the graph and the event log are returned alongside the outcome. -/
def getNode : (fuel : Nat) → (g : Graph V E) → (i : Nat) →
    Option (Except (Err E) V × Graph V E × List (Event V))
  | 0, _, _ => none
  | f + 1, g, i =>
    match g[i]? with
    | none => none
    | some n =>
      if n.kind = .derived then
        if n.needsUpdate then
          match pullWith (getNode f) g n.inputs with
          | none => none
          | some (.error err, g1, log1) => some (.error err, g1, log1)
          | some (.ok vals, g1, log1) =>
            match g1[i]? with
            | none => none
            | some n1 =>
              if anyInputHasUpdate g1 n1.inputs then
                match n1.compute with
                | none => some (.error .noComputeFn, g1, log1)
                | some fc =>
                  match fc vals with
                  | .error e =>
                    some (.error (.userExc e), g1, log1 ++ [Event.computeCall i vals])
                  | .ok newVal =>
                    if n1.value = some newVal then
                      some (ensureValue n1, clearFlags g1 i,
                        log1 ++ [Event.computeCall i vals])
                    else
                      some (.ok newVal,
                        modifyNode g1 i fun m =>
                          { m with value := some newVal, hasUpdate := true,
                                   needsUpdate := false },
                        log1 ++ [Event.computeCall i vals,
                                 Event.updated i n1.value newVal])
              else
                some (ensureValue n1, clearFlags g1 i, log1)
        else some (ensureValue n, g, [])
      else some (ensureValue n, g, [])

/-- The input pull of `Derived._compute` with an explicit fuel bound. -/
def pullInputs (fuel : Nat) (g : Graph V E) (ks : List Nat) :
    Option (Except (Err E) (List V) × Graph V E × List (Event V)) :=
  pullWith (getNode fuel) g ks

/-- `EventHook.emit(v)` on the external hook an Observer subscribed to: the
hook calls the connected `self.set` with the emitted value. -/
def hookEmit (fuel : Nat) (g : Graph V E) (i : Nat) (v : V) :
    Option (Except (Err E) Unit × Graph V E × List (Event V)) :=
  setValue fuel g i v

/-- The neighbor list `cycle_check` builds for a node: its `_inputs` when it
is a Derived node, then always its `_outputs`. -/
def neighborsOf (n : Node V E) : List Nat :=
  (if n.kind = .derived then n.inputs else []) ++ n.outputs

/-- `set.add`: membership-preserving add (Python sets hold no duplicates). -/
def addElem (l : List Nat) (i : Nat) : List Nat :=
  if i ∈ l then l else i :: l

/-- The `for neighbor in neighbors` loop of `cycle_check`, recursing into
unvisited neighbors with `check1` and raising when a neighbor is on the
recursion stack. -/
def cycleWith (check1 : Nat → List Nat → List Nat → Option (Except (Nat × Nat) (List Nat × List Nat)))
    (i : Nat) : List Nat → List Nat → List Nat →
    Option (Except (Nat × Nat) (List Nat × List Nat))
  | [], visited, stack => some (.ok (visited, stack))
  | nb :: rest, visited, stack =>
    if nb ∉ visited then
      match check1 nb visited stack with
      | none => none
      | some (.error e) => some (.error e)
      | some (.ok (v1, s1)) => cycleWith check1 i rest v1 s1
    else if nb ∈ stack then some (.error (i, nb))
    else cycleWith check1 i rest visited stack

/-- `cycle_check(node, _visited, _rec_stack)`.  The Python sets are threaded
as duplicate-free lists; a raised `CycleDetectedError` becomes an `error`
carrying the two incident node indices, and a normal return (always `False`)
yields the final `(visited, rec_stack)` pair.  The recursive call's result is
only ever `False`, so the `if cycle_check(...)` raise branch is dead code:
detection happens solely through the `elif neighbor in _rec_stack` branch,
or by an exception propagating out of the recursive call. -/
def cycleCheck : (fuel : Nat) → (g : Graph V E) → (i : Nat) →
    (visited stack : List Nat) → Option (Except (Nat × Nat) (List Nat × List Nat))
  | 0, _, _, _, _ => none
  | f + 1, g, i, visited, stack =>
    match g[i]? with
    | none => none
    | some n =>
      match cycleWith (cycleCheck f g) i (neighborsOf n)
          (addElem visited i) (addElem stack i) with
      | none => none
      | some (.error e) => some (.error e)
      | some (.ok (v2, s2)) => some (.ok (v2, s2.erase i))

/-- Projection helpers for stating theorems about a node's fields. -/
def valueAt (g : Graph V E) (i : Nat) : Option (Option V) :=
  (g[i]?).map Node.value

/-- The `_needs_update` flag of the node at `i`, when it exists. -/
def needsUpdateAt (g : Graph V E) (i : Nat) : Option Bool :=
  (g[i]?).map Node.needsUpdate

/-- The `_has_update` flag of the node at `i`, when it exists. -/
def hasUpdateAt (g : Graph V E) (i : Nat) : Option Bool :=
  (g[i]?).map Node.hasUpdate

/-! ### Concrete example graphs used in scenarios and witnesses -/

/-- `sum` as a compute function over pulled input values. -/
def exSum : List Int → Except Unit Int := fun l => Except.ok l.sum

/-- `abs` over the single pulled input value. -/
def exAbs : List Int → Except Unit Int := fun l => Except.ok (Int.natAbs l.headI : Int)

/-- Doubling over the single pulled input value. -/
def exDouble : List Int → Except Unit Int := fun l => Except.ok (2 * l.headI)

/-- A compute function that always raises. -/
def exBoom : List Int → Except Unit Int := fun _ => Except.error ()

/-- Scenario 1 of the spec: `Value(1)`, `Value(2)`,
`Derived(inputs=[A,B], compute=sum)`. -/
def exG3 : Graph Int Unit :=
  addDerived (addValue (addValue [] (some 1)) (some 2)) (some exSum) [0, 1]

/-- A Derived node that is clean (`_needs_update` false) with a cached value. -/
def exGclean : Graph Int Unit :=
  [{ mkDerivedNode (some exSum) [] with needsUpdate := false, value := some 5 }]


/-- A three-node chain `A -> B -> C` where `A` is a `Value` node and `B`, `C`
are Derived nodes with compute functions `f` and `gc`, with every value and
flag explicit.  This is the graph shape produced by
`Derived(inputs=[A], compute=f)` and `Derived(inputs=[B], compute=g)`. -/
def chain3 (vA : Option V) (huA nuA : Bool) (vB : Option V) (huB nuB : Bool)
    (vC : Option V) (huC nuC : Bool) (f gc : List V → Except E V) : Graph V E :=
  [ { value := vA, hasUpdate := huA, needsUpdate := nuA, outputs := [1],
      inputs := [], kind := .value, compute := none },
    { value := vB, hasUpdate := huB, needsUpdate := nuB, outputs := [2],
      inputs := [0], kind := .derived, compute := some f },
    { value := vC, hasUpdate := huC, needsUpdate := nuC, outputs := [],
      inputs := [1], kind := .derived, compute := some gc } ]

/-- The C10 witness graph: a `Value`, a clean Derived `B` whose
`_has_update` is `false`, and a dirty Derived `C` that has never computed. -/
def exG10 : Graph Int Unit :=
  [ { mkValue (some 1) with outputs := [1] },
    { mkDerivedNode (some exAbs) [0] with
      outputs := [2], value := some 1, hasUpdate := false, needsUpdate := false },
    mkDerivedNode (some exDouble) [1] ]

/-- Pulling a list of clean (not dirty) inputs that all hold cached values
returns those values and leaves the graph untouched, emitting nothing. -/
theorem pullInputs_clean (fuel : Nat) (g : Graph V E) (ks : List Nat)
    (h : ∀ k ∈ ks, ∃ m : Node V E, g[k]? = some m ∧ m.kind = .derived ∧
      m.needsUpdate = false ∧ ∃ w, m.value = some w) :
    ∃ vals, pullInputs (fuel + 1) g ks = some (.ok vals, g, []) := by
  induction ks with
  | nil => exact ⟨[], rfl⟩
  | cons k rest ih =>
    obtain ⟨m, hm, hk, hnu, w, hw⟩ := h k (by simp)
    have hget : getNode (fuel + 1) g k = some (.ok w, g, []) := by
      simp [getNode, hm, hk, hnu, ensureValue, hw]
    obtain ⟨vs, hvs⟩ := ih (fun k' hk' => h k' (by simp [hk']))
    refine ⟨w :: vs, ?_⟩
    simp only [pullInputs] at hvs
    simp [pullInputs, pullWith, hget, hvs]


/-- One dependency edge of the dirty-propagation graph: `j` is in `i`'s
`_outputs` list. -/
def OutStep (g : Graph V E) (i j : Nat) : Prop :=
  ∃ n : Node V E, g[i]? = some n ∧ j ∈ n.outputs

/-- The node at `j`, if present, has its `_needs_update` flag set. -/
def MarkedAt (g : Graph V E) (j : Nat) : Prop :=
  ∀ m : Node V E, g[j]? = some m → m.needsUpdate = true

/-- How `_push_needs_update` may transform the arena: every node is either
untouched or has had exactly its `_needs_update` flag set to `True`. -/
def PushPres (g g' : Graph V E) : Prop :=
  ∀ j : Nat, g'[j]? = g[j]? ∨
    ∃ n : Node V E, g[j]? = some n ∧ g'[j]? = some { n with needsUpdate := true }


/-- One pull edge of the evaluation graph: `j` is in `i`'s `_inputs` list. -/
def InStep (g : Graph V E) (i j : Nat) : Prop :=
  ∃ n : Node V E, g[i]? = some n ∧ j ∈ n.inputs

/-- The immutable part of a node: its graph connections, class, and compute
callable (`get` and `set` only ever change `_value` and the two flags). -/
def nodeStruct (n : Node V E) :
    List Nat × List Nat × NodeKind × Option (List V → Except E V) :=
  (n.inputs, n.outputs, n.kind, n.compute)

/-- The arenas agree on every node's immutable structure. -/
def StructPres (g g' : Graph V E) : Prop :=
  ∀ j : Nat, (g'[j]?).map nodeStruct = (g[j]?).map nodeStruct

/-- Frame of one `get` call rooted at `i`: structure is preserved, nodes not
input-reachable from `i` are untouched, and non-Derived nodes are never
touched at all. -/
def GetFrame (g g' : Graph V E) (i : Nat) : Prop :=
  StructPres g g' ∧
  (∀ j : Nat, ¬ Relation.ReflTransGen (InStep g) i j → g'[j]? = g[j]?) ∧
  (∀ (j : Nat) (m : Node V E), g[j]? = some m → m.kind ≠ .derived → g'[j]? = some m)

/-- Frame of pulling a list of inputs. -/
def PullFrame (g g' : Graph V E) (ks : List Nat) : Prop :=
  StructPres g g' ∧
  (∀ j : Nat, (∀ k ∈ ks, ¬ Relation.ReflTransGen (InStep g) k j) → g'[j]? = g[j]?) ∧
  (∀ (j : Nat) (m : Node V E), g[j]? = some m → m.kind ≠ .derived → g'[j]? = some m)

/-- The C9 invariant: every non-Derived (`Value` or `Observer`) node has
`_has_update = True`. -/
def HasUpdInv (g : Graph V E) : Prop :=
  ∀ (j : Nat) (m : Node V E), g[j]? = some m → m.kind ≠ .derived → m.hasUpdate = true

/-- The C5 witness graph: a `Value` node feeding a dirty Derived node whose
compute function always raises. -/
def exG5 : Graph Int Unit :=
  [ { mkValue (some 1) with outputs := [1] },
    mkDerivedNode (some exBoom) [0] ]


/-- One edge of the adjacency `cycle_check` walks: `j` is among `i`'s
neighbors (its `inputs` when `i` is Derived, plus always its `outputs`). -/
def NbStep (g : Graph V E) (i j : Nat) : Prop :=
  ∃ n : Node V E, g[i]? = some n ∧ j ∈ neighborsOf n

/-- A cycle is reachable from `i` through the `cycle_check` adjacency. -/
def CycleReachable (g : Graph V E) (i : Nat) : Prop :=
  ∃ u, Relation.ReflTransGen (NbStep g) i u ∧ Relation.TransGen (NbStep g) u u

/-- Every recursion-stack entry can reach the current node (the stack is the
chain of active `cycle_check` frames). -/
def AllReach (g : Graph V E) (s : List Nat) (i : Nat) : Prop :=
  ∀ x ∈ s, Relation.ReflTransGen (NbStep g) x i

/-- Every finished ("black": visited and off the stack) node has only
finished neighbors. -/
def BlackClosed (g : Graph V E) (v s : List Nat) : Prop :=
  ∀ b ∈ v, b ∉ s → ∀ c, NbStep g b c → c ∈ v ∧ c ∉ s

/-- No finished node lies on a cycle. -/
def BlackAcyclic (g : Graph V E) (v s : List Nat) : Prop :=
  ∀ b ∈ v, b ∉ s → ¬ Relation.TransGen (NbStep g) b b

/-- The depth-first-search invariant of `cycle_check`. -/
def DFSInv (g : Graph V E) (v s : List Nat) : Prop :=
  (∀ x ∈ s, x ∈ v) ∧ BlackClosed g v s ∧ BlackAcyclic g v s

/-- The C4 witness graph: `Value(1)` with one Derived reader — the normal
two-node graph, whose bidirectional `inputs`/`outputs` adjacency already
contains a two-step cycle. -/
def exG4 : Graph Int Unit :=
  addDerived (addValue [] (some 1)) (some exSum) [0]

/-- A one-directional artificial graph: node `0` lists `1` as an output but
`1` is a plain `Value` node (no `inputs` back-edge), so no cycle exists. -/
def exG4b : Graph Int Unit :=
  [{ mkValue (some 1) with outputs := [1] }, mkValue (some 2)]

/-! ### Basic lemmas about the arena -/

theorem getElem?_modifyNode_self {g : Graph V E} {i : Nat} {n : Node V E}
    (hn : g[i]? = some n) (f : Node V E → Node V E) :
    (modifyNode g i f)[i]? = some (f n) := by
  have hi : i < g.length := by
    by_contra h
    rw [List.getElem?_eq_none (Nat.le_of_not_lt h)] at hn
    exact Option.noConfusion hn
  simp [modifyNode, hn, List.getElem?_set_self, hi]

theorem getElem?_modifyNode_ne {g : Graph V E} {i j : Nat} (hij : i ≠ j)
    (f : Node V E → Node V E) : (modifyNode g i f)[j]? = g[j]? := by
  unfold modifyNode
  cases hg : g[i]? with
  | none => rfl
  | some n => simp [List.getElem?_set_ne hij]


/-- Unfolding `getNode` on a non-Derived (Value or Observer) node:
`Value.get` is `_ensure_value` and touches nothing. -/
theorem getNode_not_derived (f : Nat) (g : Graph V E) (i : Nat) (n : Node V E)
    (hn : g[i]? = some n) (hk : n.kind ≠ .derived) :
    getNode (f + 1) g i = some (ensureValue n, g, []) := by
  simp [getNode, hn, hk]

/-- Unfolding `getNode` on a clean Derived node: the cached-value path. -/
theorem getNode_derived_clean (f : Nat) (g : Graph V E) (i : Nat) (n : Node V E)
    (hn : g[i]? = some n) (hk : n.kind = .derived) (hnu : n.needsUpdate = false) :
    getNode (f + 1) g i = some (ensureValue n, g, []) := by
  simp [getNode, hn, hk, hnu]

/-- Unfolding `getNode` on a dirty Derived node down to `Derived._compute`,
with the recursive pull left folded. -/
theorem getNode_derived_dirty (f : Nat) (g : Graph V E) (i : Nat) (n : Node V E)
    (hn : g[i]? = some n) (hk : n.kind = .derived) (hnu : n.needsUpdate = true) :
    getNode (f + 1) g i =
      match pullWith (getNode f) g n.inputs with
      | none => none
      | some (.error err, g1, log1) => some (.error err, g1, log1)
      | some (.ok vals, g1, log1) =>
        match g1[i]? with
        | none => none
        | some n1 =>
          if anyInputHasUpdate g1 n1.inputs then
            match n1.compute with
            | none => some (.error .noComputeFn, g1, log1)
            | some fc =>
              match fc vals with
              | .error e =>
                some (.error (.userExc e), g1, log1 ++ [Event.computeCall i vals])
              | .ok newVal =>
                if n1.value = some newVal then
                  some (ensureValue n1, clearFlags g1 i,
                    log1 ++ [Event.computeCall i vals])
                else
                  some (.ok newVal,
                    modifyNode g1 i fun m =>
                      { m with value := some newVal, hasUpdate := true,
                               needsUpdate := false },
                    log1 ++ [Event.computeCall i vals,
                             Event.updated i n1.value newVal])
          else
            some (ensureValue n1, clearFlags g1 i, log1) := by
  simp [getNode, hn, hk, hnu]

/-! ### Claim theorems -/

/-- C6: for every Derived node `d` and every argument `x`, `d.set(x)` raises
`ReadOnlyNodeError` (the read-only `ValueError` of `Derived.set`)
unconditionally — regardless of the argument, including the currently cached
value — and leaves the whole graph (hence the node's cached value, flags and
outputs) unchanged, emitting nothing. -/
theorem derived_set_always_read_only (fuel : Nat) (g : Graph V E) (i : Nat)
    (x : V) (n : Node V E) (hn : g[i]? = some n) (hk : n.kind = .derived) :
    setValue fuel g i x = some (.error .readOnly, g, []) := by
  unfold setValue
  rw [hn]
  simp [hk]

/-- Witness for C6: a concrete Derived node rejects a `set`, even of its own
cached value, leaving the graph untouched. -/
theorem derived_set_always_read_only_witness :
    setValue 1 exGclean 0 (5 : Int) = some (.error .readOnly, exGclean, []) :=
  derived_set_always_read_only 1 exGclean 0 5
    { mkDerivedNode (some exSum) [] with needsUpdate := false, value := some 5 }
    rfl rfl

/-- C7: for every Value (non-Derived) node holding `x`, `set(x)` with a value
equal to the current one returns immediately with no side effects: no
`updated` emission, stored value and `has_update` unchanged (the whole graph
is returned untouched), and no `needs_update` propagation into any output. -/
theorem value_set_equal_noop (fuel : Nat) (g : Graph V E) (i : Nat) (x : V)
    (n : Node V E) (hn : g[i]? = some n) (hk : n.kind ≠ .derived)
    (hv : n.value = some x) :
    setValue fuel g i x = some (.ok (), g, []) := by
  unfold setValue
  rw [hn]
  simp [hk, hv]

/-- Witness for C7: setting a concrete Value node to its current value is a
complete no-op. -/
theorem value_set_equal_noop_witness :
    setValue 1 (addValue ([] : Graph Int Unit) (some 7)) 0 7 =
      some (.ok (), addValue ([] : Graph Int Unit) (some 7), []) :=
  value_set_equal_noop 1 (addValue [] (some 7)) 0 7 (mkValue (some 7)) rfl
    (by simp [mkValue]) rfl

/-- C8: an Observer node constructed on an external hook raises the
unset-value error from `get()` before any emission; after the hook emits a
single value `v` (the hook calls the subscribed `set`, i.e. the Observer
forwards every emitted value into its own `set()`), `get()` returns `v`. -/
theorem observer_get_after_emit (v : V) :
    getNode 1 ([mkObserver] : Graph V E) 0 =
      some (.error .unsetValue, [mkObserver], []) ∧
    hookEmit 1 ([mkObserver] : Graph V E) 0 v =
      some (.ok (), [{ mkObserver with value := some v }],
        [Event.updated 0 none v]) ∧
    getNode 1 ([{ mkObserver with value := some v }] : Graph V E) 0 =
      some (.ok v, [{ mkObserver with value := some v }], []) := by
  exact ⟨rfl, rfl, rfl⟩

/-- C10: a Derived node that has never successfully computed (cache still the
unset sentinel) whose recompute runs while every direct input is a clean
Derived node reporting `_has_update == false` clears its own `_needs_update`
and `_has_update` flags and raises the unset-value error instead of invoking
the compute function; because `_needs_update` is now false, a subsequent
`get()` takes the cached-value path and raises again, leaving the graph
unchanged (so this repeats until an input re-marks the node dirty). -/
theorem derived_unset_short_circuit (fuel fuel2 : Nat) (g : Graph V E) (d : Nat)
    (n : Node V E) (hn : g[d]? = some n) (hk : n.kind = .derived)
    (hnu : n.needsUpdate = true) (hv : n.value = none)
    (hin : ∀ k ∈ n.inputs, ∃ m : Node V E, g[k]? = some m ∧ m.kind = .derived ∧
      m.needsUpdate = false ∧ m.hasUpdate = false ∧ ∃ w, m.value = some w) :
    getNode (fuel + 1 + 1) g d = some (.error .unsetValue, clearFlags g d, []) ∧
    needsUpdateAt (clearFlags g d) d = some false ∧
    hasUpdateAt (clearFlags g d) d = some false ∧
    valueAt (clearFlags g d) d = some none ∧
    getNode (fuel2 + 1) (clearFlags g d) d =
      some (.error .unsetValue, clearFlags g d, []) := by
  obtain ⟨vals, hpull⟩ := pullInputs_clean fuel g n.inputs (fun k hk' => by
    obtain ⟨m, h1, h2, h3, _, hw⟩ := hin k hk'
    exact ⟨m, h1, h2, h3, hw⟩)
  have hany : anyInputHasUpdate g n.inputs = false := by
    simp only [anyInputHasUpdate, List.any_eq_false, decide_eq_true_eq]
    intro k hk'
    obtain ⟨m, h1, _, _, h4, _⟩ := hin k hk'
    simp [h1, h4]
  have hclear : (clearFlags g d)[d]? =
      some { n with hasUpdate := false, needsUpdate := false } :=
    getElem?_modifyNode_self hn _
  simp only [pullInputs] at hpull
  refine ⟨?_, ?_, ?_, ?_, ?_⟩
  · rw [getNode_derived_dirty (fuel + 1) g d n hn hk hnu]
    simp [hpull, hn, hany, ensureValue, hv]
  · simp [needsUpdateAt, hclear]
  · simp [hasUpdateAt, hclear]
  · simp [valueAt, hclear, hv]
  · rw [getNode_derived_clean fuel2 (clearFlags g d) d _ hclear hk rfl]
    simp [ensureValue, hv]

/-- Witness for C10: on the concrete graph `exG10` (a never-computed dirty
Derived node whose single input is a clean Derived node with
`_has_update == false`), `get()` raises the unset-value error with the flags
cleared. -/
theorem derived_unset_short_circuit_witness :
    getNode 2 exG10 2 = some (.error .unsetValue, clearFlags exG10 2, []) := by
  refine (derived_unset_short_circuit 0 0 exG10 2 (mkDerivedNode (some exDouble) [1])
    rfl rfl rfl rfl ?_).1
  intro k hk
  simp only [mkDerivedNode, List.mem_singleton] at hk
  subst hk
  exact ⟨_, rfl, rfl, rfl, rfl, 1, rfl⟩

/-- C3: postcondition of `Derived.get()`.  First conjunct: when
`_needs_update` is false, `get()` returns `_ensure_value()` on the untouched
graph with no emission and no compute invocation (so it raises exactly when
the cache is still unset).  Second conjunct: when `_needs_update` is true,
`get()` pulls every input in declared order (the `pullInputs` hypothesis) and,
when some direct input reports `_has_update`, returns the compute function
applied to the pulled tuple.  Third conjunct: the spec scenario
`Value(1), Value(2), Derived(inputs=[A,B], compute=sum)` — the first `get()`
returns `3`, emits `updated` exactly once, sets `_has_update` and clears
`_needs_update`. -/
theorem derived_get_postcondition :
    (∀ (fuel : Nat) (g : Graph V E) (i : Nat) (n : Node V E),
        g[i]? = some n → n.kind = .derived → n.needsUpdate = false →
        getNode (fuel + 1) g i = some (ensureValue n, g, [])) ∧
    (∀ (fuel : Nat) (g : Graph V E) (d : Nat) (n : Node V E) (vals : List V)
        (g1 : Graph V E) (log1 : List (Event V)) (n1 : Node V E)
        (fc : List V → Except E V) (w : V),
        g[d]? = some n → n.kind = .derived → n.needsUpdate = true →
        pullInputs fuel g n.inputs = some (.ok vals, g1, log1) →
        g1[d]? = some n1 → anyInputHasUpdate g1 n1.inputs = true →
        n1.compute = some fc → fc vals = .ok w →
        ∃ g2 log2, getNode (fuel + 1) g d = some (.ok w, g2, log2)) ∧
    ((getNode 2 exG3 2).map (fun r => (r.1, r.2.2)) =
        some (.ok 3, [Event.computeCall 2 [1, 2], Event.updated 2 none 3]) ∧
      (getNode 2 exG3 2).map (fun r =>
          (valueAt r.2.1 2, hasUpdateAt r.2.1 2, needsUpdateAt r.2.1 2)) =
        some (some (some 3), some true, some false)) := by
  refine ⟨?_, ?_, rfl, rfl⟩
  · intro fuel g i n hn hk hnu
    simp [getNode, hn, hk, hnu]
  · intro fuel g d n vals g1 log1 n1 fc w hn hk hnu hpull hn1 hany hc hw
    simp only [pullInputs] at hpull
    rw [getNode_derived_dirty fuel g d n hn hk hnu]
    by_cases hveq : n1.value = some w
    · exact ⟨clearFlags g1 d, log1 ++ [Event.computeCall d vals], by
        simp [hpull, hn1, hany, hc, hw, hveq, ensureValue]⟩
    · exact ⟨modifyNode g1 d fun m =>
          { m with value := some w, hasUpdate := true, needsUpdate := false },
        log1 ++ [Event.computeCall d vals, Event.updated d n1.value w], by
        simp [hpull, hn1, hany, hc, hw, hveq]⟩

/-- Witness for C3: a clean Derived node with a cached value returns it from
`get()` without touching the graph or emitting anything. -/
theorem derived_get_postcondition_witness :
    getNode 1 exGclean 0 = some (.ok 5, exGclean, []) := by
  have h := (@derived_get_postcondition Int Unit _).1 0 exGclean 0
    { mkDerivedNode (some exSum) [] with needsUpdate := false, value := some 5 }
    rfl rfl rfl
  simpa [ensureValue] using h

/-- C1: idempotence short-circuit.  For the previously computed chain
`A -> [f] -> B -> [gc] -> C` (a `Value` node `A` holding `a`, Derived `B`
caching `b`, Derived `C` caching `c`, all clean), if `A.set(newv)` changes
`A` (`a ≠ newv`) but `f` applied to the new input equals `B`'s cached value
(`f [newv] = ok b`), then: the set stores `newv`, emits once on `A.updated`,
and marks `B` and `C` dirty (`C.needs_update` true immediately after the
set); the subsequent `C.get()` recomputes only `B` (event log is exactly
`[computeCall 1 [newv]]`), never invokes `gc`, never emits `C.updated`,
returns `C`'s cached value `c` unchanged, and clears `C`'s `_needs_update`
and `_has_update` flags. -/
theorem idempotence_short_circuit (a b c newv : V) (huA huB huC : Bool)
    (f gc : List V → Except E V) (hne : ¬ (a = newv)) (hf : f [newv] = .ok b) :
    setValue 3 (chain3 (some a) huA false (some b) huB false (some c) huC false f gc)
        0 newv =
      some (.ok (),
        chain3 (some newv) true false (some b) huB true (some c) huC true f gc,
        [Event.updated 0 (some a) newv]) ∧
    needsUpdateAt
      (chain3 (some newv) true false (some b) huB true (some c) huC true f gc) 2 =
      some true ∧
    getNode 3 (chain3 (some newv) true false (some b) huB true (some c) huC true f gc)
        2 =
      some (.ok c,
        chain3 (some newv) true false (some b) false false (some c) false false f gc,
        [Event.computeCall 1 [newv]]) ∧
    (∀ args, Event.computeCall 2 args ∉ [Event.computeCall 1 [newv]]) ∧
    (∀ o w, Event.updated 2 o w ∉ ([Event.computeCall 1 [newv]] : List (Event V))) ∧
    needsUpdateAt
      (chain3 (some newv) true false (some b) false false (some c) false false f gc) 2 =
      some false ∧
    hasUpdateAt
      (chain3 (some newv) true false (some b) false false (some c) false false f gc) 2 =
      some false ∧
    valueAt
      (chain3 (some newv) true false (some b) false false (some c) false false f gc) 2 =
      some (some c) := by
  refine ⟨?_, rfl, ?_, by simp, by simp, rfl, rfl, rfl⟩
  · simp [setValue, setValueStore, chain3, modifyNode, pushNeedsUpdate, pushWith,
      markNeedsUpdate, hne]
  · simp [getNode, chain3, pullWith, anyInputHasUpdate, clearFlags, modifyNode,
      ensureValue, hf]

/-- Witness for C1: the chain `A = Value 5`, `B = abs(A) = 5`,
`C = double(B) = 10`; after `A.set(-5)` (which changes `A` but keeps
`abs` at `5`), `C.get()` only recomputes `B`. -/
theorem idempotence_short_circuit_witness :
    getNode 3 (chain3 (some (-5 : Int)) true false (some 5) true true (some 10)
        true true exAbs exDouble) 2 =
      some (.ok 10,
        chain3 (some (-5 : Int)) true false (some 5) false false (some 10)
          false false exAbs exDouble,
        [Event.computeCall 1 [-5]]) :=
  (idempotence_short_circuit 5 5 10 (-5) true true true exAbs exDouble
    (by decide) (by simp [exAbs])).2.2.1

/-- Witness for C8: the Observer scenario at the concrete value `3`. -/
theorem observer_get_after_emit_witness :
    getNode 1 ([mkObserver] : Graph Int Unit) 0 =
      some (.error .unsetValue, [mkObserver], []) ∧
    hookEmit 1 ([mkObserver] : Graph Int Unit) 0 3 =
      some (.ok (), [{ mkObserver with value := some 3 }],
        [Event.updated 0 none 3]) ∧
    getNode 1 ([{ mkObserver with value := some 3 }] : Graph Int Unit) 0 =
      some (.ok 3, [{ mkObserver with value := some 3 }], []) :=
  observer_get_after_emit 3

/-! ### Dirty propagation (`_push_needs_update`) lemmas for C2 -/

theorem pushPres_refl (g : Graph V E) : PushPres g g := fun _ => Or.inl rfl

theorem pushPres_trans {g1 g2 g3 : Graph V E} (h12 : PushPres g1 g2)
    (h23 : PushPres g2 g3) : PushPres g1 g3 := by
  intro j
  rcases h23 j with h3 | ⟨n2, hn2, hn3⟩
  · rcases h12 j with h2 | ⟨n1, hn1, hn2⟩
    · exact Or.inl (h3.trans h2)
    · exact Or.inr ⟨n1, hn1, h3.trans hn2⟩
  · rcases h12 j with h2 | ⟨n1, hn1, hn2'⟩
    · exact Or.inr ⟨n2, h2 ▸ hn2, hn3⟩
    · refine Or.inr ⟨n1, hn1, ?_⟩
      rw [hn2'] at hn2
      obtain rfl : n2 = { n1 with needsUpdate := true } := by
        exact Option.some_injective _ hn2.symm
      exact hn3

theorem pushPres_mark (g : Graph V E) (o : Nat) :
    PushPres g (markNeedsUpdate g o) := by
  intro j
  by_cases hj : o = j
  · subst hj
    cases hg : g[o]? with
    | none => simp [markNeedsUpdate, modifyNode, hg]
    | some n => exact Or.inr ⟨n, rfl, getElem?_modifyNode_self hg _⟩
  · exact Or.inl (getElem?_modifyNode_ne hj _)

/-- `PushPres` leaves the `outputs` structure intact, so the propagation
edge relation is stable. -/
theorem pushPres_outStep {g g' : Graph V E} (h : PushPres g g') (a b : Nat) :
    OutStep g' a b ↔ OutStep g a b := by
  constructor
  · rintro ⟨n', hn', hb⟩
    rcases h a with heq | ⟨n, hn, hn'2⟩
    · exact ⟨n', heq ▸ hn', hb⟩
    · refine ⟨n, hn, ?_⟩
      rw [hn'2] at hn'
      obtain rfl : n' = { n with needsUpdate := true } :=
        Option.some_injective _ hn'.symm
      exact hb
  · rintro ⟨n, hn, hb⟩
    rcases h a with heq | ⟨n2, hn2, hn'2⟩
    · exact ⟨n, heq.trans hn, hb⟩
    · obtain rfl : n = n2 := by
        rw [hn] at hn2
        exact Option.some_injective _ hn2
      exact ⟨{ n with needsUpdate := true }, hn'2, hb⟩

theorem pushPres_marked {g g' : Graph V E} (h : PushPres g g') (j : Nat)
    (hj : MarkedAt g j) : MarkedAt g' j := by
  intro m hm
  rcases h j with heq | ⟨n, hn, hn'⟩
  · exact hj m (heq ▸ hm)
  · rw [hn'] at hm
    obtain rfl : m = { n with needsUpdate := true } :=
      Option.some_injective _ hm.symm
    rfl

theorem markedAt_mark (g : Graph V E) (o : Nat) :
    MarkedAt (markNeedsUpdate g o) o := by
  intro m hm
  cases hg : g[o]? with
  | none => simp [markNeedsUpdate, modifyNode, hg] at hm
  | some n =>
    have := getElem?_modifyNode_self hg (fun n => { n with needsUpdate := true })
    rw [markNeedsUpdate, this] at hm
    obtain rfl : m = { n with needsUpdate := true } :=
      Option.some_injective _ hm.symm
    rfl

theorem pushWith_pres (push1 : Graph V E → Nat → Option (Graph V E))
    (hp : ∀ g o g', push1 g o = some g' → PushPres g g') :
    ∀ (os : List Nat) (g g' : Graph V E), pushWith push1 g os = some g' →
      PushPres g g' := by
  intro os
  induction os with
  | nil =>
    intro g g' h
    obtain rfl : g = g' := by simpa [pushWith] using h
    exact pushPres_refl g
  | cons o rest ih =>
    intro g g' h
    simp only [pushWith] at h
    cases heq : push1 (markNeedsUpdate g o) o with
    | none => rw [heq] at h; exact absurd h (by simp)
    | some g1 =>
      rw [heq] at h
      exact pushPres_trans (pushPres_trans (pushPres_mark g o) (hp _ _ _ heq))
        (ih g1 g' h)

theorem pushNeedsUpdate_pres :
    ∀ (fuel : Nat) (g : Graph V E) (i : Nat) (g' : Graph V E),
      pushNeedsUpdate fuel g i = some g' → PushPres g g' := by
  intro fuel
  induction fuel with
  | zero => intro g i g' h; exact absurd h (by simp [pushNeedsUpdate])
  | succ f ih =>
    intro g i g' h
    simp only [pushNeedsUpdate] at h
    cases hg : g[i]? with
    | none =>
      rw [hg] at h
      obtain rfl : g = g' := by simpa using h
      exact pushPres_refl g
    | some n =>
      rw [hg] at h
      exact pushWith_pres (pushNeedsUpdate f) ih n.outputs g g' h

theorem pushWith_marks (push1 : Graph V E → Nat → Option (Graph V E))
    (hpres : ∀ g o g', push1 g o = some g' → PushPres g g')
    (hmk : ∀ g o g', push1 g o = some g' →
      ∀ j, Relation.TransGen (OutStep g) o j → MarkedAt g' j) :
    ∀ (os : List Nat) (g g' : Graph V E), pushWith push1 g os = some g' →
      ∀ o ∈ os, ∀ j, Relation.ReflTransGen (OutStep g) o j → MarkedAt g' j := by
  intro os
  induction os with
  | nil => intro g g' _ o ho; exact absurd ho (by simp)
  | cons o rest ih =>
    intro g g' h o' ho' j hreach
    simp only [pushWith] at h
    cases heq : push1 (markNeedsUpdate g o) o with
    | none => rw [heq] at h; exact absurd h (by simp)
    | some g1 =>
      rw [heq] at h
      have presM : PushPres g (markNeedsUpdate g o) := pushPres_mark g o
      have pres1 : PushPres (markNeedsUpdate g o) g1 := hpres _ _ _ heq
      have presR : PushPres g1 g' := pushWith_pres push1 hpres rest g1 g' h
      rcases List.mem_cons.mp ho' with rfl | hmem
      · rcases Relation.reflTransGen_iff_eq_or_transGen.mp hreach with rfl | htrans
        · exact pushPres_marked presR j
            (pushPres_marked pres1 j (markedAt_mark g j))
        · have htrans' : Relation.TransGen (OutStep (markNeedsUpdate g o')) o' j :=
            Relation.TransGen.mono
              (fun a b hab => (pushPres_outStep presM a b).mpr hab) htrans
          exact pushPres_marked presR j (hmk _ _ _ heq j htrans')
      · have hreach' : Relation.ReflTransGen (OutStep g1) o' j :=
          Relation.ReflTransGen.mono
            (fun a b hab =>
              (pushPres_outStep (pushPres_trans presM pres1) a b).mpr hab) hreach
        exact ih g1 g' h o' hmem j hreach'

theorem pushNeedsUpdate_marks :
    ∀ (fuel : Nat) (g : Graph V E) (i : Nat) (g' : Graph V E),
      pushNeedsUpdate fuel g i = some g' →
      ∀ j, Relation.TransGen (OutStep g) i j → MarkedAt g' j := by
  intro fuel
  induction fuel with
  | zero => intro g i g' h; exact absurd h (by simp [pushNeedsUpdate])
  | succ f ih =>
    intro g i g' h j hreach
    simp only [pushNeedsUpdate] at h
    cases hg : g[i]? with
    | none =>
      obtain ⟨b, ⟨n, hn, _⟩, _⟩ := Relation.TransGen.head'_iff.mp hreach
      rw [hg] at hn
      exact absurd hn (by simp)
    | some n =>
      rw [hg] at h
      obtain ⟨b, ⟨n', hn', hb⟩, hrest⟩ := Relation.TransGen.head'_iff.mp hreach
      obtain rfl : n = n' := by
        rw [hg] at hn'
        exact Option.some_injective _ hn'
      exact pushWith_marks (pushNeedsUpdate f) (pushNeedsUpdate_pres f) ih
        n.outputs g g' h b hb j hrest

/-- `modifyNode` with an outputs-preserving update leaves the propagation
edge relation unchanged. -/
theorem outStep_modifyNode (g : Graph V E) (i : Nat) (f : Node V E → Node V E)
    (hf : ∀ n, (f n).outputs = n.outputs) (a b : Nat) :
    OutStep (modifyNode g i f) a b ↔ OutStep g a b := by
  unfold OutStep
  by_cases hai : i = a
  · subst hai
    cases hg : g[i]? with
    | none => simp [modifyNode, hg]
    | some n => simp [getElem?_modifyNode_self hg f, hg, hf n]
  · simp [getElem?_modifyNode_ne hai f]

/-- C2: for a Value (non-Derived) node currently holding `x` and any `y ≠ x`
(value inequality), `set(y)` — when its unconditional recursive propagation
terminates, i.e. the run returns a result, which the claim's finite-acyclic
precondition guarantees — succeeds, emits exactly one `updated(x, y)` (the
emission happens synchronously inside `set`, so it is in the returned log),
stores `y`, sets `_has_update`, and afterwards every node transitively
reachable from `i` through `outputs` links has `_needs_update == true`. -/
theorem value_set_distinct (fuel : Nat) (g : Graph V E) (i : Nat) (x y : V)
    (n : Node V E) (res : Except (Err E) Unit) (g' : Graph V E)
    (log : List (Event V)) (hn : g[i]? = some n) (hk : n.kind ≠ .derived)
    (hv : n.value = some x) (hne : ¬ (x = y))
    (hrun : setValue fuel g i y = some (res, g', log)) :
    res = .ok () ∧ log = [Event.updated i (some x) y] ∧
    valueAt g' i = some (some y) ∧ hasUpdateAt g' i = some true ∧
    ∀ j, Relation.TransGen (OutStep g) i j → MarkedAt g' j := by
  simp only [setValue, setValueStore] at hrun
  rw [hn] at hrun
  simp [hk, hv, hne] at hrun
  cases hpush : pushNeedsUpdate fuel
      (modifyNode g i fun m => { m with value := some y, hasUpdate := true }) i with
  | none => rw [hpush] at hrun; simp at hrun
  | some g2 =>
    rw [hpush] at hrun
    simp at hrun
    obtain ⟨rfl, rfl, rfl⟩ := hrun
    have hgm : (modifyNode g i fun m =>
        { m with value := some y, hasUpdate := true })[i]? =
        some { n with value := some y, hasUpdate := true } :=
      getElem?_modifyNode_self hn _
    have hpres : PushPres
        (modifyNode g i fun m => { m with value := some y, hasUpdate := true }) g2 :=
      pushNeedsUpdate_pres fuel _ i g2 hpush
    refine ⟨rfl, rfl, ?_, ?_, ?_⟩
    · rcases hpres i with heq | ⟨m, hm, hm'⟩
      · simp [valueAt, heq, hgm]
      · rw [hgm] at hm
        obtain rfl : m = { n with value := some y, hasUpdate := true } :=
          Option.some_injective _ hm.symm
        simp [valueAt, hm']
    · rcases hpres i with heq | ⟨m, hm, hm'⟩
      · simp [hasUpdateAt, heq, hgm]
      · rw [hgm] at hm
        obtain rfl : m = { n with value := some y, hasUpdate := true } :=
          Option.some_injective _ hm.symm
        simp [hasUpdateAt, hm']
    · intro j hreach
      refine pushNeedsUpdate_marks fuel _ i g2 hpush j ?_
      exact Relation.TransGen.mono
        (fun a b hab => (outStep_modifyNode g i
          (fun m => { m with value := some y, hasUpdate := true })
          (fun _ => rfl) a b).mpr hab) hreach

/-- Witness for C2: setting `A` from `1` to `7` in the concrete chain
`A -> B -> C` stores `7`, keeps `_has_update`, and marks both downstream
Derived nodes dirty. -/
theorem value_set_distinct_witness :
    valueAt (chain3 (some (7 : Int)) true false (some 2) true true (some 3)
      true true exAbs exDouble) 0 = some (some 7) ∧
    hasUpdateAt (chain3 (some (7 : Int)) true false (some 2) true true (some 3)
      true true exAbs exDouble) 0 = some true ∧
    needsUpdateAt (chain3 (some (7 : Int)) true false (some 2) true true (some 3)
      true true exAbs exDouble) 1 = some true ∧
    needsUpdateAt (chain3 (some (7 : Int)) true false (some 2) true true (some 3)
      true true exAbs exDouble) 2 = some true := by
  have h := value_set_distinct 3
    (chain3 (some (1 : Int)) true false (some 2) true false (some 3) true false
      exAbs exDouble) 0 1 7 _ (.ok ())
    (chain3 (some (7 : Int)) true false (some 2) true true (some 3) true true
      exAbs exDouble) [Event.updated 0 (some 1) 7]
    rfl (by decide) rfl (by decide) rfl
  have e01 : OutStep (chain3 (some (1 : Int)) true false (some 2) true false
      (some 3) true false exAbs exDouble) 0 1 := ⟨_, rfl, by decide⟩
  have e12 : OutStep (chain3 (some (1 : Int)) true false (some 2) true false
      (some 3) true false exAbs exDouble) 1 2 := ⟨_, rfl, by decide⟩
  have h1 := h.2.2.2.2 1 (Relation.TransGen.single e01) _ rfl
  have h2 := h.2.2.2.2 2 (Relation.TransGen.head e01
    (Relation.TransGen.single e12)) _ rfl
  exact ⟨h.2.2.1, h.2.2.2.1, by simpa [needsUpdateAt, chain3] using h1,
    by simpa [needsUpdateAt, chain3] using h2⟩

/-! ### Frame lemmas for `getNode` (used by C5 and C9) -/

theorem structPres_refl (g : Graph V E) : StructPres g g := fun _ => rfl

theorem structPres_trans {g1 g2 g3 : Graph V E} (h12 : StructPres g1 g2)
    (h23 : StructPres g2 g3) : StructPres g1 g3 :=
  fun j => (h23 j).trans (h12 j)

/-- Structure-preserving arenas have the same pull edges. -/
theorem structPres_inStep {g g' : Graph V E} (h : StructPres g g') (a b : Nat) :
    InStep g' a b ↔ InStep g a b := by
  constructor
  · rintro ⟨n', hn', hb⟩
    have := h a
    rw [hn'] at this
    cases hg : g[a]? with
    | none => rw [hg] at this; simp at this
    | some n =>
      rw [hg] at this
      simp only [Option.map, Option.some_inj, nodeStruct, Prod.mk.injEq] at this
      exact ⟨n, hg, this.1 ▸ hb⟩
  · rintro ⟨n, hn, hb⟩
    have := h a
    rw [hn] at this
    cases hg : g'[a]? with
    | none => rw [hg] at this; simp at this
    | some n' =>
      rw [hg] at this
      simp only [Option.map, Option.some_inj, nodeStruct, Prod.mk.injEq] at this
      exact ⟨n', hg, this.1.symm ▸ hb⟩

theorem structPres_modifyNode (g : Graph V E) (i : Nat) (f : Node V E → Node V E)
    (hf : ∀ n, nodeStruct (f n) = nodeStruct n) :
    StructPres g (modifyNode g i f) := by
  intro j
  by_cases hij : i = j
  · subst hij
    cases hg : g[i]? with
    | none => simp [modifyNode, hg]
    | some n => rw [getElem?_modifyNode_self hg f]; simp [hf n]
  · rw [getElem?_modifyNode_ne hij f]

theorem getFrame_refl (g : Graph V E) (i : Nat) : GetFrame g g i :=
  ⟨structPres_refl g, fun _ _ => rfl, fun _ _ hm _ => hm⟩

/-- Extend a pull frame over `i`'s inputs, plus a flags-or-value update of
node `i` itself, into a get frame rooted at `i`. -/
theorem getFrame_of_pull (g g1 : Graph V E) (i : Nat) (n : Node V E)
    (hn : g[i]? = some n) (hkd : n.kind = .derived)
    (hpf : PullFrame g g1 n.inputs) : GetFrame g g1 i := by
  obtain ⟨hs, hfr, hnd⟩ := hpf
  refine ⟨hs, ?_, hnd⟩
  intro j hj
  refine hfr j fun k hk hreach => hj ?_
  exact Relation.ReflTransGen.head ⟨n, hn, hk⟩ hreach

theorem getFrame_of_pull_modify (g g1 : Graph V E) (i : Nat) (n : Node V E)
    (f : Node V E → Node V E) (hn : g[i]? = some n) (hkd : n.kind = .derived)
    (hf : ∀ m, nodeStruct (f m) = nodeStruct m)
    (hpf : PullFrame g g1 n.inputs) : GetFrame g (modifyNode g1 i f) i := by
  obtain ⟨hs, hfr, hnd⟩ := getFrame_of_pull g g1 i n hn hkd hpf
  refine ⟨structPres_trans hs (structPres_modifyNode g1 i f hf), ?_, ?_⟩
  · intro j hj
    have hji : i ≠ j := fun h => hj (h ▸ Relation.ReflTransGen.refl)
    rw [getElem?_modifyNode_ne hji f]
    exact hfr j hj
  · intro j m hm hkind
    have hji : i ≠ j := by
      rintro rfl
      rw [hn] at hm
      obtain rfl : m = n := Option.some_injective _ hm.symm
      exact hkind hkd
    rw [getElem?_modifyNode_ne hji f]
    exact hnd j m hm hkind

theorem pullWith_frame
    (get1 : Graph V E → Nat → Option (Except (Err E) V × Graph V E × List (Event V)))
    (h1 : ∀ g k r g' log, get1 g k = some (r, g', log) → GetFrame g g' k) :
    ∀ (ks : List Nat) (g : Graph V E) r (g' : Graph V E) log,
      pullWith get1 g ks = some (r, g', log) → PullFrame g g' ks := by
  intro ks
  induction ks with
  | nil =>
    intro g r g' log h
    simp only [pullWith, Option.some_inj, Prod.mk.injEq] at h
    obtain ⟨-, h2, -⟩ := h
    subst h2
    exact ⟨structPres_refl g, fun _ _ => rfl, fun _ _ hm _ => hm⟩
  | cons k rest ih =>
    intro g r g' log h
    simp only [pullWith] at h
    cases hget : get1 g k with
    | none => rw [hget] at h; exact absurd h (by simp)
    | some t =>
      obtain ⟨r1, g1, log1⟩ := t
      rw [hget] at h
      have hframe1 : GetFrame g g1 k := h1 g k r1 g1 log1 hget
      obtain ⟨hs1, hfr1, hnd1⟩ := hframe1
      cases r1 with
      | error e =>
        simp at h
        obtain ⟨-, rfl, -⟩ := h
        refine ⟨hs1, ?_, hnd1⟩
        intro j hj
        exact hfr1 j (hj k (by simp))
      | ok v =>
        simp only at h
        cases hrest : pullWith get1 g1 rest with
        | none => rw [hrest] at h; exact absurd h (by simp)
        | some t2 =>
          obtain ⟨r2, g2, log2⟩ := t2
          rw [hrest] at h
          have hframe2 : PullFrame g1 g2 rest := ih g1 r2 g2 log2 hrest
          obtain ⟨hs2, hfr2, hnd2⟩ := hframe2
          have hg2 : g' = g2 := by
            cases r2 with
            | error e => simp at h; exact h.2.1.symm
            | ok vs => simp at h; exact h.2.1.symm
          subst hg2
          refine ⟨structPres_trans hs1 hs2, ?_, ?_⟩
          · intro j hj
            have e1 : g1[j]? = g[j]? := hfr1 j (hj k (by simp))
            have e2 : g'[j]? = g1[j]? := by
              refine hfr2 j fun k' hk' hreach => ?_
              refine hj k' (by simp [hk']) ?_
              exact Relation.ReflTransGen.mono
                (fun a b hab => (structPres_inStep hs1 a b).mp hab) hreach
            exact e2.trans e1
          · intro j m hm hkind
            exact hnd2 j m (hnd1 j m hm hkind) hkind

/-- `getNode` with a dangling index produces the embedding artifact `none`
(a Python object reference always resolves, so this cannot happen there). -/
theorem getNode_no_node (f : Nat) (g : Graph V E) (i : Nat) (hg : g[i]? = none) :
    getNode (f + 1) g i = none := by
  simp [getNode, hg]

/-- The full frame property of `getNode`: a `get` rooted at `i` preserves
every node's structure, never touches a node that is not input-reachable
from `i`, and never touches a non-Derived node. -/
theorem getNode_frame :
    ∀ (fuel : Nat) (g : Graph V E) (i : Nat) r (g' : Graph V E) log,
      getNode fuel g i = some (r, g', log) → GetFrame g g' i := by
  intro fuel
  induction fuel with
  | zero => intro g i r g' log h; exact absurd h (by simp [getNode])
  | succ f ih =>
    intro g i r g' log h
    cases hg : g[i]? with
    | none => rw [getNode_no_node f g i hg] at h; exact absurd h (by simp)
    | some n =>
      by_cases hkd : n.kind = .derived
      · cases hnu : n.needsUpdate with
        | false =>
          rw [getNode_derived_clean f g i n hg hkd hnu] at h
          simp only [Option.some_inj, Prod.mk.injEq] at h
          obtain ⟨-, h2, -⟩ := h
          subst h2
          exact getFrame_refl g i
        | true =>
          rw [getNode_derived_dirty f g i n hg hkd hnu] at h
          cases hpull : pullWith (getNode f) g n.inputs with
          | none => simp [hpull] at h
          | some t =>
            obtain ⟨pr, g1, plog⟩ := t
            have hpf : PullFrame g g1 n.inputs :=
              pullWith_frame (getNode f)
                (fun g k r g' log hh => ih g k r g' log hh)
                n.inputs g pr g1 plog hpull
            cases pr with
            | error e =>
              simp only [hpull] at h
              replace h : some ((Except.error e : Except (Err E) V), g1, plog) =
                  some (r, g', log) := h
              simp only [Option.some_inj, Prod.mk.injEq] at h
              obtain ⟨-, h2, -⟩ := h
              subst h2
              exact getFrame_of_pull g g1 i n hg hkd hpf
            | ok vals =>
              cases hg1 : g1[i]? with
              | none => simp [hpull, hg1] at h
              | some n1 =>
                cases hany : anyInputHasUpdate g1 n1.inputs with
                | false =>
                  simp [hpull, hg1, hany] at h
                  obtain ⟨-, h2, -⟩ := h
                  subst h2
                  exact getFrame_of_pull_modify g g1 i n _ hg hkd
                    (fun m => rfl) hpf
                | true =>
                  cases hc : n1.compute with
                  | none =>
                    simp [hpull, hg1, hany, hc] at h
                    obtain ⟨-, h2, -⟩ := h
                    subst h2
                    exact getFrame_of_pull g g1 i n hg hkd hpf
                  | some fc =>
                    cases hfc : fc vals with
                    | error e =>
                      simp [hpull, hg1, hany, hc, hfc] at h
                      obtain ⟨-, h2, -⟩ := h
                      subst h2
                      exact getFrame_of_pull g g1 i n hg hkd hpf
                    | ok newVal =>
                      by_cases hveq : n1.value = some newVal
                      · simp [hpull, hg1, hany, hc, hfc, hveq] at h
                        obtain ⟨-, h2, -⟩ := h
                        subst h2
                        exact getFrame_of_pull_modify g g1 i n _ hg hkd
                          (fun m => rfl) hpf
                      · simp [hpull, hg1, hany, hc, hfc, hveq] at h
                        obtain ⟨-, h2, -⟩ := h
                        subst h2
                        exact getFrame_of_pull_modify g g1 i n _ hg hkd
                          (fun m => rfl) hpf
      · rw [getNode_not_derived f g i n hg hkd] at h
        simp only [Option.some_inj, Prod.mk.injEq] at h
        obtain ⟨-, h2, -⟩ := h
        subst h2
        exact getFrame_refl g i

/-- C5: compute-error atomicity and retry.  For a dirty Derived node `d`
whose compute function raises the exception `e` on the tuple of pulled
input values, with
no input-cycle through `d` (the spec's standing DAG assumption, stated as:
`d` is not input-reachable from any of its inputs) and whose input pull
succeeds, `get()` propagates the exception uncaught and unwrapped
(`userExc e`), keeps the pulls' state (`g1`) but leaves `d`'s entry exactly
as it was: cached value unchanged, `_needs_update` still true and
`_has_update` unchanged, so a subsequent `get()` takes the recompute path
again. -/
theorem compute_error_propagates (fuel : Nat) (g : Graph V E) (d : Nat)
    (n : Node V E) (fc : List V → Except E V) (e : E) (vals : List V)
    (g1 : Graph V E) (plog : List (Event V))
    (hn : g[d]? = some n) (hk : n.kind = .derived) (hnu : n.needsUpdate = true)
    (hc : n.compute = some fc) (hf : fc vals = .error e)
    (hcyc : ∀ k ∈ n.inputs, ¬ Relation.ReflTransGen (InStep g) k d)
    (hpull : pullInputs fuel g n.inputs = some (.ok vals, g1, plog))
    (hup : anyInputHasUpdate g1 n.inputs = true) :
    getNode (fuel + 1) g d =
      some (.error (.userExc e), g1, plog ++ [Event.computeCall d vals]) ∧
    g1[d]? = some n ∧ needsUpdateAt g1 d = some true ∧
    hasUpdateAt g1 d = some n.hasUpdate ∧ valueAt g1 d = some n.value := by
  simp only [pullInputs] at hpull
  have hpf : PullFrame g g1 n.inputs :=
    pullWith_frame (getNode fuel)
      (fun g k r g' log hh => getNode_frame fuel g k r g' log hh)
      n.inputs g (.ok vals) g1 plog hpull
  have hd1 : g1[d]? = some n := (hpf.2.1 d hcyc).trans hn
  refine ⟨?_, hd1, ?_, ?_, ?_⟩
  · rw [getNode_derived_dirty fuel g d n hn hk hnu]
    simp [hpull, hd1, hup, hc, hf]
  · simp [needsUpdateAt, hd1, hnu]
  · simp [hasUpdateAt, hd1]
  · simp [valueAt, hd1]

/-- Witness for C5: in `exG5` the Derived node's compute always raises; its
`get()` surfaces the exception, emits only the compute-call record, leaves
the graph exactly as it was, and the node is still dirty. -/
theorem compute_error_propagates_witness :
    getNode 2 exG5 1 =
      some (.error (.userExc ()), exG5, [Event.computeCall 1 [1]]) ∧
    needsUpdateAt exG5 1 = some true := by
  have hnoin : ∀ b : Nat, ¬ InStep exG5 0 b := by
    rintro b ⟨m, hm, hb⟩
    have hm' : some ({ mkValue (some 1) with outputs := [1] } : Node Int Unit) =
        some m := hm
    obtain rfl : ({ mkValue (some 1) with outputs := [1] } : Node Int Unit) = m :=
      Option.some_injective _ hm'
    simp [mkValue] at hb
  have h := compute_error_propagates 1 exG5 1 (mkDerivedNode (some exBoom) [0])
    exBoom () [1] exG5 [] rfl rfl rfl rfl rfl
    (by
      intro k hk hreach
      have hk0 : k = 0 := by simpa [mkDerivedNode] using hk
      subst hk0
      rcases Relation.reflTransGen_iff_eq_or_transGen.mp hreach with heq | htr
      · exact absurd heq (by decide)
      · obtain ⟨b, hstep, -⟩ := Relation.TransGen.head'_iff.mp htr
        exact hnoin b hstep)
    rfl rfl
  exact ⟨h.1, h.2.2.1⟩

/-- `HasUpdInv` follows from a per-element check over the arena list. -/
theorem hasUpdInv_of_forall_mem (g : Graph V E)
    (h : ∀ n ∈ g, n.kind ≠ .derived → n.hasUpdate = true) : HasUpdInv g :=
  fun _ m hm hk => h m (List.getElem?_mem hm) hk

/-- `setValueStore` (the mutating tail of `Value.set`) preserves the C9
invariant: it only ever sets `_has_update` to `True` and pushes
`_needs_update` flags. -/
theorem hasUpdInv_setValueStore (fuel : Nat) (g : Graph V E) (i : Nat)
    (n : Node V E) (oldV : Option V) (y : V) (r : Except (Err E) Unit)
    (g' : Graph V E) (log : List (Event V)) (hg : g[i]? = some n)
    (hInv : HasUpdInv g) (h : setValueStore fuel g i oldV y = some (r, g', log)) :
    HasUpdInv g' := by
  simp only [setValueStore] at h
  cases hpush : pushNeedsUpdate fuel
      (modifyNode g i fun m => { m with value := some y, hasUpdate := true }) i with
  | none => rw [hpush] at h; exact absurd h (by simp)
  | some g2 =>
    rw [hpush] at h
    simp only [Option.some_inj, Prod.mk.injEq] at h
    obtain ⟨-, h2, -⟩ := h
    subst h2
    have hInvm : HasUpdInv
        (modifyNode g i fun m => { m with value := some y, hasUpdate := true }) := by
      intro j m' hm' hkind'
      by_cases hij : i = j
      · subst hij
        rw [getElem?_modifyNode_self hg _] at hm'
        obtain rfl : m' = { n with value := some y, hasUpdate := true } :=
          Option.some_injective _ hm'.symm
        rfl
      · rw [getElem?_modifyNode_ne hij _] at hm'
        exact hInv j m' hm' hkind'
    have hpres := pushNeedsUpdate_pres fuel _ i g2 hpush
    intro j m' hm' hkind'
    rcases hpres j with heq | ⟨n2, hn2, hn2'⟩
    · exact hInvm j m' (heq ▸ hm') hkind'
    · rw [hn2'] at hm'
      obtain rfl : m' = { n2 with needsUpdate := true } :=
        Option.some_injective _ hm'.symm
      exact hInvm j n2 hn2 hkind'

/-- C9: the implicit `_has_update` invariant of plain (non-Derived) nodes.
(1) `Value.__init__` (with any initial value, including the unset sentinel)
and `Observer.__init__` set `_has_update = True`.  (2)(3) Both `get` and
`set` preserve the invariant that every non-Derived node has
`_has_update = True` — no operation ever resets a plain node's flag.
(4) Consequently a Derived node with at least one non-Derived direct input
never sees the all-inputs-unchanged condition hold, so it never takes that
short-circuit. -/
theorem has_update_invariant :
    (∀ v : Option V, (mkValue v : Node V E).hasUpdate = true ∧
      (mkObserver : Node V E).hasUpdate = true) ∧
    (∀ (fuel : Nat) (g : Graph V E) (i : Nat) r (g' : Graph V E) log,
      HasUpdInv g → getNode fuel g i = some (r, g', log) → HasUpdInv g') ∧
    (∀ (fuel : Nat) (g : Graph V E) (i : Nat) (y : V) r (g' : Graph V E) log,
      HasUpdInv g → setValue fuel g i y = some (r, g', log) → HasUpdInv g') ∧
    (∀ (g : Graph V E) (d : Nat) (n : Node V E) (k : Nat) (m : Node V E),
      HasUpdInv g → g[d]? = some n → k ∈ n.inputs → g[k]? = some m →
      m.kind ≠ .derived → anyInputHasUpdate g n.inputs = true) := by
  refine ⟨fun v => ⟨rfl, rfl⟩, ?_, ?_, ?_⟩
  · intro fuel g i r g' log hInv hrun
    obtain ⟨hs, -, hnd⟩ := getNode_frame fuel g i r g' log hrun
    intro j m' hm' hkind'
    have hsj := hs j
    rw [hm'] at hsj
    cases hgj : g[j]? with
    | none => rw [hgj] at hsj; simp at hsj
    | some m0 =>
      rw [hgj] at hsj
      simp only [Option.map, Option.some_inj, nodeStruct, Prod.mk.injEq] at hsj
      have hk0 : m0.kind ≠ .derived := hsj.2.2.1 ▸ hkind'
      have := hnd j m0 hgj hk0
      rw [hm'] at this
      obtain rfl : m' = m0 := Option.some_injective _ this
      exact hInv j m' hgj hkind'
  · intro fuel g i y r g' log hInv hrun
    cases hg : g[i]? with
    | none => simp [setValue, hg] at hrun
    | some n =>
      by_cases hkd : n.kind = .derived
      · simp [setValue, hg, hkd] at hrun
        obtain ⟨-, h2, -⟩ := hrun
        subst h2
        exact hInv
      · cases hv : n.value with
        | some oldV =>
          by_cases heq : oldV = y
          · simp [setValue, hg, hkd, hv, heq] at hrun
            obtain ⟨-, h2, -⟩ := hrun
            subst h2
            exact hInv
          · simp only [setValue, hg, hkd, hv, heq, if_neg, if_false] at hrun
            exact hasUpdInv_setValueStore fuel g i n (some oldV) y r g' log hg hInv
              (by simpa [heq] using hrun)
        | none =>
          simp only [setValue, hg, hkd, hv] at hrun
          exact hasUpdInv_setValueStore fuel g i n none y r g' log hg hInv
            (by simpa using hrun)
  · intro g d n k m hInv hn hk hm hkind
    have hmu : m.hasUpdate = true := hInv k m hm hkind
    simp only [anyInputHasUpdate, List.any_eq_true]
    exact ⟨k, hk, by simp [hm, hmu]⟩

/-- Witness for C9: in `exG5` the Derived node has the plain Value node `0`
as an input, so the all-inputs-unchanged check can never hold for it. -/
theorem has_update_invariant_witness :
    anyInputHasUpdate exG5 [0] = true := by
  have hinv : HasUpdInv exG5 := by
    refine hasUpdInv_of_forall_mem exG5 ?_
    intro n hn hk
    simp only [exG5, List.mem_cons, List.mem_singleton, List.not_mem_nil,
      or_false] at hn
    rcases hn with rfl | rfl
    · rfl
    · exact absurd rfl hk
  exact has_update_invariant.2.2.2 exG5 1 (mkDerivedNode (some exBoom) [0]) 0
    { mkValue (some 1) with outputs := [1] } hinv rfl (by decide) rfl (by decide)

/-! ### `cycle_check` correctness (C4) -/

theorem mem_addElem {l : List Nat} {i x : Nat} :
    x ∈ addElem l i ↔ x = i ∨ x ∈ l := by
  unfold addElem
  by_cases h : i ∈ l
  · simp only [if_pos h]
    constructor
    · exact Or.inr
    · rintro (rfl | hx)
      · exact h
      · exact hx
  · simp [if_neg h]

theorem addElem_of_not_mem {l : List Nat} {i : Nat} (h : i ∉ l) :
    addElem l i = i :: l := by
  simp [addElem, h]

/-- Walking forward from a finished node stays among finished nodes. -/
theorem blackClosed_reach {g : Graph V E} {v s : List Nat}
    (hbc : BlackClosed g v s) {x y : Nat} (hx : x ∈ v) (hxs : x ∉ s)
    (hreach : Relation.ReflTransGen (NbStep g) x y) : y ∈ v ∧ y ∉ s := by
  induction hreach with
  | refl => exact ⟨hx, hxs⟩
  | tail hr hstep ih => exact hbc _ ih.1 ih.2 _ hstep

/-- On success, the neighbor loop of `cycle_check` restores the recursion
stack and only grows the visited set. -/
theorem cycleWith_stack
    (check1 : Nat → List Nat → List Nat → Option (Except (Nat × Nat) (List Nat × List Nat)))
    (h1 : ∀ (k : Nat) (v s v' s' : List Nat), k ∉ s → (∀ x ∈ s, x ∈ v) →
      check1 k v s = some (.ok (v', s')) → s' = s ∧ ∀ x ∈ v, x ∈ v') :
    ∀ (nbs : List Nat) (i : Nat) (v s v' s' : List Nat), (∀ x ∈ s, x ∈ v) →
      cycleWith check1 i nbs v s = some (.ok (v', s')) →
      s' = s ∧ ∀ x ∈ v, x ∈ v' := by
  intro nbs
  induction nbs with
  | nil =>
    intro i v s v' s' hsv h
    simp only [cycleWith, Option.some_inj, Except.ok.injEq, Prod.mk.injEq] at h
    exact ⟨h.2.symm, h.1 ▸ fun x hx => hx⟩
  | cons nb rest ih =>
    intro i v s v' s' hsv h
    simp only [cycleWith] at h
    by_cases hnb : nb ∈ v
    · rw [if_neg (by simpa using hnb)] at h
      by_cases hns : nb ∈ s
      · rw [if_pos hns] at h
        exact absurd h (by simp)
      · rw [if_neg hns] at h
        exact ih i v s v' s' hsv h
    · rw [if_pos (by simpa using hnb)] at h
      cases hc : check1 nb v s with
      | none => rw [hc] at h; exact absurd h (by simp)
      | some res =>
        rw [hc] at h
        cases res with
        | error e => exact absurd h (by simp)
        | ok p =>
          obtain ⟨v1, s1⟩ := p
          have hk := h1 nb v s v1 s1 (fun hmem => hnb (hsv nb hmem)) hsv hc
          obtain ⟨rfl, hvv1⟩ := hk
          have := ih i v1 s1 v' s' (fun x hx => hvv1 x (hsv x hx)) h
          exact ⟨this.1, fun x hx => this.2 x (hvv1 x hx)⟩

/-- On success, `cycle_check` restores the recursion stack it was given and
only grows the visited set. -/
theorem cycleCheck_stack :
    ∀ (fuel : Nat) (g : Graph V E) (k : Nat) (v s v' s' : List Nat), k ∉ s →
      (∀ x ∈ s, x ∈ v) → cycleCheck fuel g k v s = some (.ok (v', s')) →
      s' = s ∧ ∀ x ∈ v, x ∈ v' := by
  intro fuel g
  induction fuel with
  | zero => intro k v s v' s' _ _ h; exact absurd h (by simp [cycleCheck])
  | succ f ih =>
    intro k v s v' s' hks hsv h
    simp only [cycleCheck] at h
    cases hg : g[k]? with
    | none => rw [hg] at h; exact absurd h (by simp)
    | some n =>
      rw [hg] at h
      replace h : (match cycleWith (cycleCheck f g) k (neighborsOf n)
            (addElem v k) (addElem s k) with
          | none => none
          | some (.error e) => some (.error e)
          | some (.ok (v2, s2)) => some (.ok (v2, s2.erase k))) =
          some (Except.ok (v', s')) := h
      cases hw : cycleWith (cycleCheck f g) k (neighborsOf n)
          (addElem v k) (addElem s k) with
      | none => rw [hw] at h; exact absurd h (by simp)
      | some res =>
        rw [hw] at h
        cases res with
        | error e => exact absurd h (by simp)
        | ok p =>
          obtain ⟨v2, s2⟩ := p
          simp only [Option.some_inj, Except.ok.injEq, Prod.mk.injEq] at h
          obtain ⟨hv2, hs2⟩ := h
          have hsv1 : ∀ x ∈ addElem s k, x ∈ addElem v k := by
            intro x hx
            rcases mem_addElem.mp hx with rfl | hx'
            · exact mem_addElem.mpr (Or.inl rfl)
            · exact mem_addElem.mpr (Or.inr (hsv x hx'))
          have := cycleWith_stack (cycleCheck f g) ih (neighborsOf n) k
            (addElem v k) (addElem s k) v2 s2 hsv1 hw
          obtain ⟨rfl, hgrow⟩ := this
          refine ⟨?_, ?_⟩
          · rw [← hs2, addElem_of_not_mem hks, List.erase_cons_head]
          · intro x hx
            exact hv2 ▸ hgrow x (mem_addElem.mpr (Or.inr hx))

/-- Soundness of the neighbor loop: a raised `CycleDetectedError` really
means a cycle is reachable from the current node. -/
theorem cycleWith_sound (g : Graph V E)
    (check1 : Nat → List Nat → List Nat → Option (Except (Nat × Nat) (List Nat × List Nat)))
    (h1 : ∀ (k : Nat) (v s : List Nat) (e : Nat × Nat), AllReach g s k →
      (∀ x ∈ s, x ∈ v) → check1 k v s = some (.error e) → CycleReachable g k)
    (hstk : ∀ (k : Nat) (v s v' s' : List Nat), k ∉ s → (∀ x ∈ s, x ∈ v) →
      check1 k v s = some (.ok (v', s')) → s' = s ∧ ∀ x ∈ v, x ∈ v') :
    ∀ (nbs : List Nat) (i : Nat) (v s : List Nat) (e : Nat × Nat),
      (∀ nb ∈ nbs, NbStep g i nb) → AllReach g s i → (∀ x ∈ s, x ∈ v) →
      cycleWith check1 i nbs v s = some (.error e) → CycleReachable g i := by
  intro nbs
  induction nbs with
  | nil => intro i v s e _ _ _ h; exact absurd h (by simp [cycleWith])
  | cons nb rest ih =>
    intro i v s e hnbs hall hsv h
    have hstep : NbStep g i nb := hnbs nb (by simp)
    simp only [cycleWith] at h
    by_cases hnb : nb ∈ v
    · rw [if_neg (by simpa using hnb)] at h
      by_cases hns : nb ∈ s
      · refine ⟨i, Relation.ReflTransGen.refl, ?_⟩
        exact Relation.TransGen.head'_iff.mpr ⟨nb, hstep, hall nb hns⟩
      · rw [if_neg hns] at h
        exact ih i v s e (fun x hx => hnbs x (by simp [hx])) hall hsv h
    · rw [if_pos (by simpa using hnb)] at h
      cases hc : check1 nb v s with
      | none => rw [hc] at h; exact absurd h (by simp)
      | some res =>
        rw [hc] at h
        cases res with
        | error e' =>
          have hallnb : AllReach g s nb := fun x hx =>
            Relation.ReflTransGen.tail (hall x hx) hstep
          obtain ⟨u, hru, hcy⟩ := h1 nb v s e' hallnb hsv hc
          exact ⟨u, Relation.ReflTransGen.head hstep hru, hcy⟩
        | ok p =>
          obtain ⟨v1, s1⟩ := p
          have hk := hstk nb v s v1 s1 (fun hmem => hnb (hsv nb hmem)) hsv hc
          obtain ⟨rfl, hvv1⟩ := hk
          exact ih i v1 s1 e (fun x hx => hnbs x (by simp [hx])) hall
            (fun x hx => hvv1 x (hsv x hx)) h

/-- Soundness of `cycle_check`: if it raises, a cycle is reachable from the
node it was called on. -/
theorem cycleCheck_sound :
    ∀ (fuel : Nat) (g : Graph V E) (k : Nat) (v s : List Nat) (e : Nat × Nat),
      AllReach g s k → (∀ x ∈ s, x ∈ v) →
      cycleCheck fuel g k v s = some (.error e) → CycleReachable g k := by
  intro fuel g
  induction fuel with
  | zero => intro k v s e _ _ h; exact absurd h (by simp [cycleCheck])
  | succ f ih =>
    intro k v s e hall hsv h
    simp only [cycleCheck] at h
    cases hg : g[k]? with
    | none => rw [hg] at h; exact absurd h (by simp)
    | some n =>
      rw [hg] at h
      replace h : (match cycleWith (cycleCheck f g) k (neighborsOf n)
            (addElem v k) (addElem s k) with
          | none => none
          | some (.error e) => some (.error e)
          | some (.ok (v2, s2)) => some (.ok (v2, s2.erase k))) =
          some (Except.error e) := h
      cases hw : cycleWith (cycleCheck f g) k (neighborsOf n)
          (addElem v k) (addElem s k) with
      | none => rw [hw] at h; exact absurd h (by simp)
      | some res =>
        rw [hw] at h
        cases res with
        | ok p => exact absurd h (by simp)
        | error e' =>
          refine cycleWith_sound g (cycleCheck f g) ih (cycleCheck_stack f g)
            (neighborsOf n) k (addElem v k) (addElem s k) e'
            (fun nb hnb => ⟨n, hg, hnb⟩) ?_ ?_ hw
          · intro x hx
            rcases mem_addElem.mp hx with rfl | hx'
            · exact Relation.ReflTransGen.refl
            · exact hall x hx'
          · intro x hx
            rcases mem_addElem.mp hx with rfl | hx'
            · exact mem_addElem.mpr (Or.inl rfl)
            · exact mem_addElem.mpr (Or.inr (hsv x hx'))

/-- Completeness invariant through the neighbor loop: on success, the stack
is restored, visited only grows, the DFS invariant is preserved relative to
the loop's fixed stack, and every processed neighbor ends up finished. -/
theorem cycleWith_post (g : Graph V E)
    (check1 : Nat → List Nat → List Nat → Option (Except (Nat × Nat) (List Nat × List Nat)))
    (h1 : ∀ (k : Nat) (v s v' s' : List Nat), k ∉ v → DFSInv g v s →
      check1 k v s = some (.ok (v', s')) →
      s' = s ∧ (∀ x ∈ v, x ∈ v') ∧ k ∈ v' ∧ DFSInv g v' s') :
    ∀ (nbs : List Nat) (i : Nat) (v s v' s' : List Nat), DFSInv g v s →
      cycleWith check1 i nbs v s = some (.ok (v', s')) →
      s' = s ∧ (∀ x ∈ v, x ∈ v') ∧ DFSInv g v' s ∧
        ∀ nb ∈ nbs, nb ∈ v' ∧ nb ∉ s := by
  intro nbs
  induction nbs with
  | nil =>
    intro i v s v' s' hinv h
    simp only [cycleWith, Option.some_inj, Except.ok.injEq, Prod.mk.injEq] at h
    obtain ⟨rfl, rfl⟩ := h
    exact ⟨rfl, fun x hx => hx, hinv, by simp⟩
  | cons nb rest ih =>
    intro i v s v' s' hinv h
    simp only [cycleWith] at h
    by_cases hnb : nb ∈ v
    · rw [if_neg (by simpa using hnb)] at h
      by_cases hns : nb ∈ s
      · rw [if_pos hns] at h
        exact absurd h (by simp)
      · rw [if_neg hns] at h
        obtain ⟨hs', hgrow, hinv', hrest⟩ := ih i v s v' s' hinv h
        exact ⟨hs', hgrow, hinv',
          fun x hx => by
            rcases List.mem_cons.mp hx with rfl | hx'
            · exact ⟨hgrow x hnb, hns⟩
            · exact hrest x hx'⟩
    · rw [if_pos (by simpa using hnb)] at h
      cases hc : check1 nb v s with
      | none => rw [hc] at h; exact absurd h (by simp)
      | some res =>
        rw [hc] at h
        cases res with
        | error e => exact absurd h (by simp)
        | ok p =>
          obtain ⟨v1, s1⟩ := p
          obtain ⟨rfl, hgrow1, hnbv1, hinv1⟩ := h1 nb v s v1 s1 hnb hinv hc
          obtain ⟨hs', hgrow2, hinv', hrest⟩ := ih i v1 s1 v' s' hinv1 h
          refine ⟨hs', fun x hx => hgrow2 x (hgrow1 x hx), hinv',
            fun x hx => ?_⟩
          rcases List.mem_cons.mp hx with rfl | hx'
          · exact ⟨hgrow2 x hnbv1, fun hmem => hnb (hinv.1 x hmem)⟩
          · exact hrest x hx'

/-- Completeness invariant of `cycle_check`: a successful (non-raising) call
on an unvisited node restores the stack, grows visited to include the node,
and preserves the DFS invariant — in particular the node ends up finished
with no reachable cycle through it. -/
theorem cycleCheck_post :
    ∀ (fuel : Nat) (g : Graph V E) (k : Nat) (v s v' s' : List Nat), k ∉ v →
      DFSInv g v s → cycleCheck fuel g k v s = some (.ok (v', s')) →
      s' = s ∧ (∀ x ∈ v, x ∈ v') ∧ k ∈ v' ∧ DFSInv g v' s' := by
  intro fuel g
  induction fuel with
  | zero => intro k v s v' s' _ _ h; exact absurd h (by simp [cycleCheck])
  | succ f ih =>
    intro k v s v' s' hkv hinv h
    have hks : k ∉ s := fun hmem => hkv (hinv.1 k hmem)
    simp only [cycleCheck] at h
    cases hg : g[k]? with
    | none => rw [hg] at h; exact absurd h (by simp)
    | some n =>
      rw [hg] at h
      replace h : (match cycleWith (cycleCheck f g) k (neighborsOf n)
            (addElem v k) (addElem s k) with
          | none => none
          | some (.error e) => some (.error e)
          | some (.ok (v2, s2)) => some (.ok (v2, s2.erase k))) =
          some (Except.ok (v', s')) := h
      rw [addElem_of_not_mem hkv, addElem_of_not_mem hks] at h
      have hinv1 : DFSInv g (k :: v) (k :: s) := by
        refine ⟨?_, ?_, ?_⟩
        · intro x hx
          rcases List.mem_cons.mp hx with hxk | hx'
          · simp [hxk]
          · exact List.mem_cons_of_mem k (hinv.1 x hx')
        · intro b hb hbs c hstep
          have hb' : b ∈ v := by
            rcases List.mem_cons.mp hb with hbk | hb'
            · exact absurd (by simp [hbk]) hbs
            · exact hb'
          have hbs' : b ∉ s := fun hmem => hbs (List.mem_cons_of_mem k hmem)
          obtain ⟨hcv, hcs⟩ := hinv.2.1 b hb' hbs' c hstep
          refine ⟨List.mem_cons_of_mem k hcv, ?_⟩
          intro hmem
          rcases List.mem_cons.mp hmem with hck | hmem'
          · exact hkv (hck ▸ hcv)
          · exact hcs hmem'
        · intro b hb hbs
          have hb' : b ∈ v := by
            rcases List.mem_cons.mp hb with hbk | hb'
            · exact absurd (by simp [hbk]) hbs
            · exact hb'
          exact hinv.2.2 b hb' fun hmem => hbs (List.mem_cons_of_mem k hmem)
      cases hw : cycleWith (cycleCheck f g) k (neighborsOf n)
          (k :: v) (k :: s) with
      | none => rw [hw] at h; exact absurd h (by simp)
      | some res =>
        rw [hw] at h
        cases res with
        | error e => exact absurd h (by simp)
        | ok p =>
          obtain ⟨v2, s2⟩ := p
          simp only [Option.some_inj, Except.ok.injEq, Prod.mk.injEq] at h
          obtain ⟨hv2e, hs2e⟩ := h
          obtain ⟨hs2, hgrow, hinv2, hnbrs⟩ :=
            cycleWith_post g (cycleCheck f g) ih (neighborsOf n) k
              (k :: v) (k :: s) v2 s2 hinv1 hw
          have hss : s' = s := by rw [← hs2e, hs2, List.erase_cons_head]
          have hvv : v' = v2 := hv2e.symm
          rw [hss, hvv]
          have hkv2 : k ∈ v2 := hgrow k (List.mem_cons_self k v)
          have hblack : ∀ c, NbStep g k c → c ∈ v2 ∧ c ∉ k :: s := by
            rintro c ⟨n', hn', hc⟩
            rw [hg] at hn'
            obtain rfl : n = n' := Option.some_injective _ hn'
            exact hnbrs c hc
          refine ⟨rfl, fun x hx => hgrow x (List.mem_cons_of_mem k hx),
            hkv2, ?_, ?_, ?_⟩
          · intro x hx
            exact hgrow x (List.mem_cons_of_mem k (hinv.1 x hx))
          · intro b hb hbs c hstep
            by_cases hbk : b = k
            · obtain ⟨hcv, hcs⟩ := hblack c (hbk ▸ hstep)
              exact ⟨hcv, fun hmem => hcs (List.mem_cons_of_mem k hmem)⟩
            · have hbs1 : b ∉ k :: s := by
                intro hmem
                rcases List.mem_cons.mp hmem with hbk' | hmem'
                · exact hbk hbk'
                · exact hbs hmem'
              obtain ⟨hcv, hcs⟩ := hinv2.2.1 b hb hbs1 c hstep
              exact ⟨hcv, fun hmem => hcs (List.mem_cons_of_mem k hmem)⟩
          · intro b hb hbs
            by_cases hbk : b = k
            · subst hbk
              intro htr
              obtain ⟨c, hstep, hrt⟩ := Relation.TransGen.head'_iff.mp htr
              obtain ⟨hcv, hcs⟩ := hblack c hstep
              have := blackClosed_reach hinv2.2.1 hcv hcs hrt
              exact this.2 (List.mem_cons_self b s)
            · have hbs1 : b ∉ k :: s := by
                intro hmem
                rcases List.mem_cons.mp hmem with hbk' | hmem'
                · exact hbk hbk'
                · exact hbs hmem'
              exact hinv2.2.2 b hb hbs1

/-- C4: `cycle_check(n)` (run with fresh visited and recursion-stack sets)
raises `CycleDetectedError` iff a cycle is reachable from `n` through the
adjacency in which a Derived node's neighbors are its `inputs` plus its
`outputs` and any other node's neighbors are its `outputs`; when no such
cycle is reachable it returns normally.  (The hypothesis that the run
produces a result rules out the embedding's fuel-exhaustion artifact.) -/
theorem cycle_check_iff (fuel : Nat) (g : Graph V E) (i : Nat)
    (r : Except (Nat × Nat) (List Nat × List Nat))
    (hrun : cycleCheck fuel g i [] [] = some r) :
    ((∃ e, r = .error e) ↔ CycleReachable g i) ∧
    (¬ CycleReachable g i → ∃ p, r = .ok p) := by
  have main : (∃ e, r = .error e) ↔ CycleReachable g i := by
    constructor
    · rintro ⟨e, rfl⟩
      exact cycleCheck_sound fuel g i [] [] e (by simp [AllReach]) (by simp) hrun
    · intro hcyc
      cases r with
      | error e => exact ⟨e, rfl⟩
      | ok p =>
        obtain ⟨v', s'⟩ := p
        obtain ⟨rfl, -, hiv, hsub, hclosed, hacyc⟩ :=
          cycleCheck_post fuel g i [] [] v' s' (by simp)
            ⟨by simp, fun b hb hbs c hstep => absurd hb (by simp),
              fun b hb hbs => absurd hb (by simp)⟩ hrun
        obtain ⟨u, hru, hcy⟩ := hcyc
        obtain ⟨huv, -⟩ := blackClosed_reach hclosed hiv (by simp) hru
        exact absurd hcy (hacyc u huv (by simp))
  refine ⟨main, fun hnc => ?_⟩
  cases r with
  | error e => exact absurd (main.mp ⟨e, rfl⟩) hnc
  | ok p => exact ⟨p, rfl⟩

/-- Witness for C4: the ordinary two-node graph `Value -> Derived` contains
a two-step cycle under the `inputs`-plus-`outputs` adjacency, and
`cycle_check` on it indeed raises. -/
theorem cycle_check_iff_witness : CycleReachable exG4 0 :=
  (cycle_check_iff 10 exG4 0 (.error (1, 0)) rfl).1.mp ⟨(1, 0), rfl⟩

end Observatory
